import Mathlib

/-!
Verification of the stream-topology execution core declared by
`word_count_topology.py` and specified in `spec.md`.

The repository's single source file only declares the word-count graph
(spout → splitter → counter, with Fields groupings, parallelism hints and a
tick configuration); the execution core (records, grouping strategies, the
graph builder, the tick scheduler and the counter's flush behaviour) is
modelled here from the specification.
-/

namespace HeronCore

/-- A record flowing through the graph: either a data record carrying an
ordered mapping from field name to value, or a timer (tick) record.
Modelled from the spec: §3 Record is a tagged union
`{Data(fields), Tick(timestamp)}` with immutable fields. -/
inductive Record where
  | data (fields : List (String × String))
  | tick (timestamp : Nat)
deriving DecidableEq

/-- Look up a field's value on a record; tick records carry no fields. -/
def Record.lookup? : Record → String → Option String
  | .data fs, f => (fs.find? (fun p => p.1 = f)).map (fun p => p.2)
  | .tick _, _ => none

/-- The 64-bit FNV-1a prime. -/
def fnvPrime : Nat := 1099511628211

/-- The 64-bit FNV-1a offset basis. -/
def fnvBasis : Nat := 14695981039346656037

/-- One FNV-1a step: xor the byte in, multiply by the prime, keep 64 bits. -/
def fnvStep (h b : Nat) : Nat := ((h ^^^ b) * fnvPrime) % (2 ^ 64)

/-- UTF-8 encoding of one character, as a list of byte values. -/
def charUtf8 (c : Char) : List Nat :=
  let n := c.toNat
  if n < 0x80 then [n]
  else if n < 0x800 then [0xC0 + n / 0x40, 0x80 + n % 0x40]
  else if n < 0x10000 then
    [0xE0 + n / 0x1000, 0x80 + (n / 0x40) % 0x40, 0x80 + n % 0x40]
  else
    [0xF0 + n / 0x40000, 0x80 + (n / 0x1000) % 0x40,
     0x80 + (n / 0x40) % 0x40, 0x80 + n % 0x40]

/-- UTF-8 bytes of a string. -/
def utf8Bytes (s : String) : List Nat := s.data.flatMap charUtf8

/-- Modelled from the spec: §4.2 `stableHash` is a fixed 64-bit FNV variant
over the UTF-8 encoding of the field value's string representation. -/
def stableHash (s : String) : Nat := (utf8Bytes s).foldl fnvStep fnvBasis

/-- A grouping strategy declaration on an inbound edge. -/
inductive GroupingDecl where
  | shuffle
  | fields (fieldName : String)
deriving DecidableEq

/-- Modelled from the spec: §4.2 Fields grouping routes a record by
`stableHash(record.fields[fieldName]) mod instanceCount`; a record missing
the grouped field yields no destination (a runtime `RoutingError`, §7). -/
def fieldsRoute (f : String) (r : Record) (n : Nat) : Option Nat :=
  (r.lookup? f).map (fun v => stableHash v % n)

/-- Modelled from the spec: §4.2 Shuffle grouping round-robins across the
`n` instances using a shared cursor. -/
def shuffleRoute (cursor n : Nat) : Nat := cursor % n

/-- Destination instance set computed by a grouping strategy for a data
record, given the shared round-robin cursor and the instance count. -/
def routeDests (g : GroupingDecl) (cursor : Nat) (r : Record) (n : Nat) :
    Option (List Nat) :=
  match g with
  | .shuffle => some [shuffleRoute cursor n]
  | .fields f => (fieldsRoute f r n).map (fun i => [i])

/-- Kind of a task: a Source originates records, a Processor consumes them. -/
inductive TaskKind where
  | source
  | processor
deriving DecidableEq

/-- Modelled from the spec: §3 Task Definition: name, kind, parallelism,
per-inbound-edge grouping strategy (an edge names its upstream task), the
declared output schema (§6) and an optional tick interval. -/
structure TaskDef where
  name : String
  kind : TaskKind
  par : Nat
  inputs : List (String × GroupingDecl)
  outputSchema : List String
  tickInterval : Option Nat
deriving DecidableEq

/-- Modelled from the spec: §4.1/§7 the `BuildError` taxonomy. -/
inductive BuildError where
  | cycle
  | unknownUpstream
  | duplicateName
  | invalidField
deriving DecidableEq

/-- Modelled from the spec: §3 Topology Graph: the closed set of task
definitions, plus the topological order `build` computed. -/
structure Graph where
  tasks : List TaskDef
  order : List String
deriving DecidableEq

/-- Names of the registered tasks, in registration order. -/
def namesOf (regs : List TaskDef) : List String := regs.map (fun t => t.name)

/-- Find a task definition by name. -/
def findTask (regs : List TaskDef) (n : String) : Option TaskDef :=
  regs.find? (fun t => t.name = n)

/-- True when some edge references a task name that is not declared. -/
def hasUnknownUpstream (regs : List TaskDef) : Bool :=
  regs.any (fun t => t.inputs.any (fun e => !(namesOf regs).contains e.1))

/-- A field-grouping edge is valid when the grouped field is in the
upstream task's declared output schema. -/
def edgeFieldOk (regs : List TaskDef) (e : String × GroupingDecl) : Bool :=
  match e.2 with
  | .shuffle => true
  | .fields f =>
    match findTask regs e.1 with
    | some u => u.outputSchema.contains f
    | none => true

/-- True when some field-grouping edge names a field absent from its
upstream task's declared output schema. -/
def hasInvalidField (regs : List TaskDef) : Bool :=
  regs.any (fun t => t.inputs.any (fun e => !edgeFieldOk regs e))

/-- A task is ready once every upstream it names has been placed. -/
def pickReady (placed : List String) (pending : List TaskDef) : Option TaskDef :=
  pending.find? (fun t => t.inputs.all (fun e => placed.contains e.1))

/-- Kahn's algorithm: repeatedly place a task whose upstreams are all
placed; `placed` holds the already-ordered names in reverse. Runs out of
fuel or of ready tasks exactly when an edge closes a cycle. -/
def kahn : Nat → List String → List TaskDef → Option (List String)
  | 0, placed, pending => if pending.isEmpty then some placed.reverse else none
  | fuel + 1, placed, pending =>
    if pending.isEmpty then some placed.reverse
    else
      match pickReady placed pending with
      | none => none
      | some t => kahn fuel (t.name :: placed) (pending.erase t)

/-- True when the registrations contain a cycle: Kahn's algorithm cannot
place every task. -/
def hasCycle (regs : List TaskDef) : Bool :=
  (kahn regs.length [] regs).isNone

/-- Modelled from the spec: §4.1 `build()` validates the ordered task
registrations and on success returns the immutable graph together with a
topological order of the tasks. -/
def build (regs : List TaskDef) : Except BuildError Graph :=
  if ¬(namesOf regs).Nodup then .error .duplicateName
  else if hasUnknownUpstream regs then .error .unknownUpstream
  else if hasInvalidField regs then .error .invalidField
  else
    match kahn regs.length [] regs with
    | none => .error .cycle
    | some ord => .ok ⟨regs, ord⟩

/-- A reversed order respects the edges when every placed task's upstreams
occur further down the (reversed) list, i.e. earlier in the order. -/
def revRespects (regs : List TaskDef) : List String → Bool
  | [] => true
  | n :: rest =>
    (match findTask regs n with
     | some t => t.inputs.all (fun e => rest.contains e.1)
     | none => true) && revRespects regs rest

/-- Modelled from the spec: §4.4/§6 a task's timer fires at every positive
multiple of its configured tick interval; a task with no interval never
fires. -/
def tickFires : Option Nat → Nat → Bool
  | none, _ => false
  | some d, time => decide (0 < time) && decide (time % d = 0)

/-- Modelled from the spec: §4.4 on a timer firing the Scheduler enqueues a
Tick record into the inbound queue of every instance of the firing task,
ignoring the per-edge grouping strategies. Returns the (task name,
instance index) pairs receiving a Tick at `time`. -/
def tickDeliveries (regs : List TaskDef) (time : Nat) : List (String × Nat) :=
  regs.flatMap (fun t =>
    if tickFires t.tickInterval time then
      (List.range t.par).map (fun i => (t.name, i))
    else [])

/-- Inbound event of a Counter instance: a data record carrying a word, or
a tick. -/
inductive CounterIn where
  | data (w : String)
  | tick
deriving DecidableEq

/-- Increment the count of `w` in an association list of counts. -/
def bump (m : List (String × Nat)) (w : String) : List (String × Nat) :=
  match m with
  | [] => [(w, 1)]
  | (x, c) :: rest => if x = w then (x, c + 1) :: rest else (x, c) :: bump rest w

/-- Counts accumulated from a list of words. -/
def countsOf (ws : List String) : List (String × Nat) := ws.foldl bump []

/-- The count recorded for `w` in an association list of counts. -/
def lookupCount (m : List (String × Nat)) (w : String) : Nat :=
  ((m.find? (fun p => p.1 = w)).map (fun p => p.2)).getD 0

/-- Modelled from the spec: §4.3 the Counter increments an in-memory count
keyed by word on every data record; on every Tick it emits the counts
accumulated since the previous flush and resets them to empty. Returns the
final state and the list of flush emissions, one per tick. -/
def runCounter : List (String × Nat) → List CounterIn → List (String × Nat) × List (List (String × Nat))
  | st, [] => (st, [])
  | st, .data w :: es => runCounter (bump st w) es
  | st, .tick :: es =>
    let r := runCounter [] es
    (r.1, st :: r.2)

/-- Split a list of characters at spaces, accumulating the current word in
reverse; empty tokens are dropped. -/
def splitAux : List Char → List Char → List (List Char)
  | [], acc => if acc.isEmpty then [] else [acc.reverse]
  | c :: cs, acc =>
    if c = ' ' then
      if acc.isEmpty then splitAux cs [] else acc.reverse :: splitAux cs []
    else splitAux cs (c :: acc)

/-- Modelled from the spec: §4.3 the Splitter tokenizes a sentence on
whitespace and emits one word record per token. -/
def splitSentence (s : String) : List String := (splitAux s.data []).map String.mk

/-- The data record a Source emits for a sentence. -/
def sentenceRecord (s : String) : Record := .data [("sentence", s)]

/-- The data record the Splitter emits for a word. -/
def wordRecord (w : String) : Record := .data [("word", w)]

/-- Splitter instance receiving a sentence under Fields("sentence"). -/
def sentenceRoute (s : String) (n : Nat) : Nat :=
  (fieldsRoute "sentence" (sentenceRecord s) n).getD 0

/-- Counter instance receiving a word under Fields("word"). -/
def wordRoute (w : String) (n : Nat) : Nat :=
  (fieldsRoute "word" (wordRecord w) n).getD 0

/-- Words emitted by splitter instance `i` out of `sN`. -/
def splitterInstanceWords (sentences : List String) (sN i : Nat) : List String :=
  (sentences.filter (fun s => sentenceRoute s sN = i)).flatMap splitSentence

/-- All words emitted by the splitter stage, instance by instance. -/
def allSplitterOutput (sentences : List String) (sN : Nat) : List String :=
  (List.range sN).flatMap (splitterInstanceWords sentences sN)

/-- Words delivered to counter instance `j` out of `cN`. -/
def counterInstanceWords (words : List String) (cN j : Nat) : List String :=
  words.filter (fun w => wordRoute w cN = j)

/-- Final aggregated count of `w`: the sum over counter instances of the
count each instance holds at flush time, for splitter parallelism `sN` and
counter parallelism `cN`. -/
def finalAgg (sentences : List String) (sN cN : Nat) (w : String) : Nat :=
  ((List.range cN).map (fun j =>
    lookupCount (countsOf (counterInstanceWords (allSplitterOutput sentences sN) cN j)) w)).sum

/-- Modelled from the spec: §7 a bounded queue under a non-blocking policy
reports overflow rather than losing records silently. -/
inductive DeliveryFailure where
  | queueOverflow
deriving DecidableEq

/-- True when the queue is at its configured bound. -/
def queueFull (bound : Option Nat) (q : List Record) : Bool :=
  match bound with
  | none => false
  | some b => b ≤ q.length

/-- Append the record once to every destination queue. -/
def enqueueAll (r : Record) (dests : List Nat) (queues : Nat → List Record) :
    Nat → List Record :=
  fun i => if dests.contains i then queues i ++ [r] else queues i

/-- Modelled from the spec: §7 delivery of an emitted record is atomic: it
is enqueued to exactly the computed destination set, or the whole delivery
is reported as a failure and no queue changes. -/
def deliver (r : Record) (dests : List Nat) (bound : Option Nat)
    (queues : Nat → List Record) : Except DeliveryFailure (Nat → List Record) :=
  if dests.any (fun i => queueFull bound (queues i)) then .error .queueOverflow
  else .ok (enqueueAll r dests queues)

/-- Inbound event sequence of counter instance `j` of `cN`: the data
records routed to it by Fields("word") from the splitter stage run at
parallelism `sN`, followed by `ticks` scheduler ticks. -/
def counterInbound (sentences : List String) (sN cN j ticks : Nat) : List CounterIn :=
  (counterInstanceWords (allSplitterOutput sentences sN) cN j).map CounterIn.data ++
    List.replicate ticks CounterIn.tick

/-- The spout declared in `word_count_topology.py` line 17: name
`random_sentence_spout`, parallelism 1; its output schema (`sentence`) is
modelled from the spec §3. -/
def random_sentence_spout : TaskDef :=
  ⟨"random_sentence_spout", .source, 1, [], ["sentence"], none⟩

/-- The input mapping declared at lines 21-23: the spout's output grouped
on the field `sentence`. -/
def split_sentence_bolt_inputs : List (String × GroupingDecl) :=
  [("random_sentence_spout", .fields "sentence")]

/-- The splitter bolt declared at lines 25-26: parallelism 2; its output
schema (`word`) is modelled from the spec §3. -/
def split_sentence_bolt : TaskDef :=
  ⟨"split_sentence_bolt", .processor, 2, split_sentence_bolt_inputs, ["word"], none⟩

/-- The input mapping declared at lines 30-32: the splitter's output
grouped on the field `word`. -/
def word_count_bolt_inputs : List (String × GroupingDecl) :=
  [("split_sentence_bolt", .fields "word")]

/-- The tick-tuple frequency in seconds declared at line 35. -/
def emit_frequency : Nat := 3

/-- The counter bolt declared at lines 43-44: parallelism 2, tick interval
`emit_frequency`; its output schema is modelled from the spec §4.3. -/
def word_count_bolt : TaskDef :=
  ⟨"word_count_bolt", .processor, 2, word_count_bolt_inputs, ["word", "count"],
    some emit_frequency⟩

/-- The full topology registered on the builder, in registration order. -/
def word_count_topology : List TaskDef :=
  [random_sentence_spout, split_sentence_bolt, word_count_bolt]

end HeronCore

namespace HeronCore

/-- C2: Fields grouping is a function of the grouped field's value alone:
two records agreeing on the grouped field route identically, for every
instance count. -/
theorem fieldsRoute_deterministic (f : String) (r1 r2 : Record) (n : Nat)
    (h : r1.lookup? f = r2.lookup? f) :
    fieldsRoute f r1 n = fieldsRoute f r2 n := by
  unfold fieldsRoute
  rw [h]

/-- Witness for `fieldsRoute_deterministic` at two concrete records that
agree on the field `word`. -/
theorem fieldsRoute_deterministic_witness :
    (Record.lookup? (.data [("word", "heron")]) "word" =
      Record.lookup? (.data [("word", "heron"), ("extra", "x")]) "word") ∧
    fieldsRoute "word" (.data [("word", "heron")]) 2 =
      fieldsRoute "word" (.data [("word", "heron"), ("extra", "x")]) 2 :=
  ⟨by decide,
   fieldsRoute_deterministic "word" (.data [("word", "heron")])
     (.data [("word", "heron"), ("extra", "x")]) 2 (by decide)⟩

/-- C4: routing coverage: for every instance count `n ≥ 1`, Shuffle returns
exactly one destination index in `[0, n)`, and Fields, on a record that
carries the grouped field (guaranteed for well-formed records by build-time
schema validation), returns exactly one destination index in `[0, n)`. -/
theorem routing_coverage :
    (∀ (cursor n : Nat) (r : Record), 1 ≤ n →
      ∃ i, routeDests .shuffle cursor r n = some [i] ∧ i < n) ∧
    (∀ (f v : String) (r : Record) (cursor n : Nat), 1 ≤ n →
      r.lookup? f = some v →
      ∃ i, routeDests (.fields f) cursor r n = some [i] ∧ i < n) := by
  constructor
  · intro cursor n r hn
    exact ⟨cursor % n, rfl, Nat.mod_lt _ (Nat.lt_of_lt_of_le Nat.zero_lt_one hn)⟩
  · intro f v r cursor n hn hv
    refine ⟨stableHash v % n, ?_, Nat.mod_lt _ (Nat.lt_of_lt_of_le Nat.zero_lt_one hn)⟩
    simp [routeDests, fieldsRoute, hv]

/-- Witness for `routing_coverage` at concrete shuffle and fields routes. -/
theorem routing_coverage_witness :
    (∃ i, routeDests .shuffle 5 (.data [("word", "heron")]) 2 = some [i] ∧ i < 2) ∧
    (∃ i, routeDests (.fields "word") 5 (.data [("word", "heron")]) 2 = some [i] ∧ i < 2) :=
  ⟨routing_coverage.1 5 2 (.data [("word", "heron")]) (by decide),
   routing_coverage.2 "word" "heron" (.data [("word", "heron")]) 5 2 (by decide)
     (by decide)⟩

end HeronCore

namespace HeronCore

/-- C1: end-to-end aggregation: with the two sentences "the cat sat" and
"the cat ran" emitted before the first tick, the two counter instances'
first tick-triggered flushes together emit exactly the counts
`{the: 2, cat: 2, sat: 1, ran: 1}` (order independent), each instance's
count state is empty immediately after that flush, and a second tick with
no further input emits an empty flush. -/
theorem end_to_end_word_count :
    ((runCounter [] (counterInbound ["the cat sat", "the cat ran"] 2 2 0 1)).2.flatten ++
        (runCounter [] (counterInbound ["the cat sat", "the cat ran"] 2 2 1 1)).2.flatten).Perm
      [("the", 2), ("cat", 2), ("sat", 1), ("ran", 1)] ∧
    (runCounter [] (counterInbound ["the cat sat", "the cat ran"] 2 2 0 1)).1 = [] ∧
    (runCounter [] (counterInbound ["the cat sat", "the cat ran"] 2 2 1 1)).1 = [] ∧
    (runCounter [] (counterInbound ["the cat sat", "the cat ran"] 2 2 0 2)).2 =
      [[("the", 2), ("ran", 1)], []] ∧
    (runCounter [] (counterInbound ["the cat sat", "the cat ran"] 2 2 1 2)).2 =
      [[("cat", 2), ("sat", 1)], []] := by decide

/-- C10: the topology declared in `word_count_topology.py` passes every
build-time validation: names are pairwise distinct, every parallelism hint
is positive, every inbound edge references a previously declared task,
every grouped field is in its producer's output schema, the graph is
acyclic, and `build` succeeds with the registration order as topological
order. -/
theorem word_count_topology_builds :
    (namesOf word_count_topology).Nodup ∧
    word_count_topology.all (fun t => decide (0 < t.par)) = true ∧
    hasUnknownUpstream word_count_topology = false ∧
    hasInvalidField word_count_topology = false ∧
    hasCycle word_count_topology = false ∧
    build word_count_topology =
      .ok ⟨word_count_topology,
        ["random_sentence_spout", "split_sentence_bolt", "word_count_bolt"]⟩ := by
  refine ⟨by decide, by decide, by decide, by decide, by decide, ?_⟩
  rfl

/-- C9: the inbound edge of the splitter is literally grouped by
Fields("sentence") in the declared topology, so any two data records with
equal `sentence` values route to the same splitter instance. -/
theorem splitter_grouping_is_fields_sentence :
    split_sentence_bolt.inputs = [("random_sentence_spout", GroupingDecl.fields "sentence")] ∧
    ∀ (r1 r2 : Record) (n : Nat), r1.lookup? "sentence" = r2.lookup? "sentence" →
      fieldsRoute "sentence" r1 n = fieldsRoute "sentence" r2 n := by
  refine ⟨rfl, ?_⟩
  intro r1 r2 n h
  unfold fieldsRoute
  rw [h]

/-- Witness for `splitter_grouping_is_fields_sentence` at two concrete
records carrying the same sentence. -/
theorem splitter_grouping_is_fields_sentence_witness :
    fieldsRoute "sentence" (sentenceRecord "the cat sat") 2 =
      fieldsRoute "sentence" (.data [("sentence", "the cat sat"), ("id", "1")]) 2 :=
  splitter_grouping_is_fields_sentence.2 (sentenceRecord "the cat sat")
    (.data [("sentence", "the cat sat"), ("id", "1")]) 2 (by decide)

end HeronCore

namespace HeronCore

/-- With pairwise-distinct task names, a task is determined by its name. -/
theorem eq_of_name_eq {regs : List TaskDef} (hnd : (namesOf regs).Nodup)
    {t u : TaskDef} (ht : t ∈ regs) (hu : u ∈ regs) (he : t.name = u.name) :
    t = u :=
  List.inj_on_of_nodup_map hnd ht hu he

/-- C5: tick isolation: in a topology with distinct task names, a task
whose configuration has no tick interval never receives a Tick record, at
any time of a run of any length. -/
theorem tick_isolation (regs : List TaskDef) (t : TaskDef) (time i : Nat)
    (hnd : (namesOf regs).Nodup) (ht : t ∈ regs)
    (hnone : t.tickInterval = none) :
    (t.name, i) ∉ tickDeliveries regs time := by
  intro hmem
  rcases List.mem_flatMap.mp hmem with ⟨u, hu, hmem2⟩
  by_cases hf : tickFires u.tickInterval time = true
  · rw [if_pos hf] at hmem2
    rcases List.mem_map.mp hmem2 with ⟨j, _, hpair⟩
    have hname : u.name = t.name := congrArg Prod.fst hpair
    have hut : u = t := eq_of_name_eq hnd hu ht hname
    rw [hut, hnone] at hf
    exact absurd hf (by simp [tickFires])
  · rw [if_neg hf] at hmem2
    exact absurd hmem2 (List.not_mem_nil _)

/-- Witness for `tick_isolation`: the splitter bolt has no tick interval
configured and receives no Tick at time 6. -/
theorem tick_isolation_witness :
    ("split_sentence_bolt", 1) ∉ tickDeliveries word_count_topology 6 :=
  tick_isolation word_count_topology split_sentence_bolt 6 1 (by decide)
    (by decide) rfl

/-- C6 as stated is false on the model: at time 3, a boundary of the
counter's 3-second tick interval, the counter instances receive a Tick but
the splitter (which has no tick interval) does not, so the Scheduler does
not deliver a Tick to every instance of every task. -/
theorem tick_broadcast_counterexample :
    tickFires (some emit_frequency) 3 = true ∧
    ("word_count_bolt", 0) ∈ tickDeliveries word_count_topology 3 ∧
    ("split_sentence_bolt", 0) ∉ tickDeliveries word_count_topology 3 := by
  decide

/-- C6 amended: on every boundary of a task's configured tick interval the
Scheduler delivers a Tick to every instance of that task, and tick
delivery is independent of the declared inbound grouping strategies:
rewriting every task's inputs leaves the delivered set unchanged. -/
theorem tick_broadcast_amended :
    (∀ (regs : List TaskDef) (t : TaskDef) (time i d : Nat),
      t ∈ regs → t.tickInterval = some d → tickFires (some d) time = true →
      i < t.par → (t.name, i) ∈ tickDeliveries regs time) ∧
    (∀ (regs : List TaskDef) (time : Nat)
      (f : TaskDef → List (String × GroupingDecl)),
      tickDeliveries (regs.map (fun t => { t with inputs := f t })) time =
        tickDeliveries regs time) := by
  constructor
  · intro regs t time i d ht hd hfire hi
    refine List.mem_flatMap.mpr ⟨t, ht, ?_⟩
    rw [hd, if_pos hfire]
    exact List.mem_map.mpr ⟨i, List.mem_range.mpr hi, rfl⟩
  · intro regs time f
    induction regs with
    | nil => rfl
    | cons t rest ih =>
      simp only [List.map_cons, tickDeliveries, List.flatMap_cons] at ih ⊢
      rw [ih]

/-- Witness for `tick_broadcast_amended`: the counter's second instance
receives a Tick at the first boundary of its 3-second interval. -/
theorem tick_broadcast_amended_witness :
    ("word_count_bolt", 1) ∈ tickDeliveries word_count_topology 3 :=
  tick_broadcast_amended.1 word_count_topology word_count_bolt 3 1
    emit_frequency (by decide) rfl (by decide) (by decide)

end HeronCore

namespace HeronCore

/-- With pairwise-distinct task names, looking a member task up by its own
name finds exactly it. -/
theorem findTask_eq_of_nodup {t : TaskDef} :
    ∀ regs : List TaskDef, (namesOf regs).Nodup → t ∈ regs →
      findTask regs t.name = some t := by
  intro regs
  induction regs with
  | nil => intro _ ht; cases ht
  | cons a rest ih =>
    intro hnd ht
    rcases List.nodup_cons.mp hnd with ⟨hnin, hnd'⟩
    by_cases he : a.name = t.name
    · have hta : t = a := by
        rcases List.mem_cons.mp ht with h | h
        · exact h
        · exact absurd (he ▸ List.mem_map.mpr ⟨t, h, rfl⟩ : a.name ∈ namesOf rest) hnin
      subst hta
      simp only [findTask]
      exact List.find?_cons_of_pos _ (by simp)
    · have htr : t ∈ rest := by
        rcases List.mem_cons.mp ht with h | h
        · exact absurd (h ▸ rfl) he
        · exact h
      simp only [findTask] at ih ⊢
      rw [List.find?_cons_of_neg _ (by simpa using he)]
      exact ih hnd' htr

/-- Soundness of the Kahn loop: when it returns an order, that order
respects every edge of the registrations (a placed task's upstreams are
placed before it), extends the already-placed names, covers every pending
task, and has the full length. -/
theorem kahn_sound (regs : List TaskDef) (hnd : (namesOf regs).Nodup) :
    ∀ (fuel : Nat) (placed : List String) (pending : List TaskDef) (ord : List String),
      (∀ t ∈ pending, t ∈ regs) →
      revRespects regs placed = true →
      kahn fuel placed pending = some ord →
      revRespects regs ord.reverse = true ∧ (∀ n ∈ placed, n ∈ ord) ∧
        (∀ t ∈ pending, t.name ∈ ord) ∧
        ord.length = placed.length + pending.length := by
  intro fuel
  induction fuel with
  | zero =>
    intro placed pending ord hsub hresp hk
    simp only [kahn] at hk
    by_cases hemp : pending.isEmpty
    · rw [if_pos hemp] at hk
      obtain rfl : placed.reverse = ord := Option.some.inj hk
      obtain rfl : pending = [] := by
        cases pending with
        | nil => rfl
        | cons a l => simp [List.isEmpty] at hemp
      exact ⟨by rw [List.reverse_reverse]; exact hresp,
        fun n hn => List.mem_reverse.mpr hn, by simp, by simp⟩
    · rw [if_neg hemp] at hk; cases hk
  | succ fuel ih =>
    intro placed pending ord hsub hresp hk
    simp only [kahn] at hk
    by_cases hemp : pending.isEmpty
    · rw [if_pos hemp] at hk
      obtain rfl : placed.reverse = ord := Option.some.inj hk
      obtain rfl : pending = [] := by
        cases pending with
        | nil => rfl
        | cons a l => simp [List.isEmpty] at hemp
      exact ⟨by rw [List.reverse_reverse]; exact hresp,
        fun n hn => List.mem_reverse.mpr hn, by simp, by simp⟩
    · rw [if_neg hemp] at hk
      cases hpick : pickReady placed pending with
      | none => rw [hpick] at hk; cases hk
      | some t =>
        rw [hpick] at hk
        simp only [pickReady] at hpick
        have htp : t ∈ pending := List.mem_of_find?_eq_some hpick
        have hall : (t.inputs.all (fun e => placed.contains e.1)) = true := by
          simpa using List.find?_some hpick
        have htr : t ∈ regs := hsub t htp
        have hresp' : revRespects regs (t.name :: placed) = true := by
          simp only [revRespects]
          rw [findTask_eq_of_nodup regs hnd htr]
          rw [Bool.and_eq_true]
          exact ⟨hall, hresp⟩
        have hsub' : ∀ u ∈ pending.erase t, u ∈ regs :=
          fun u hu => hsub u (List.mem_of_mem_erase hu)
        obtain ⟨h1, h2, h3, h4⟩ := ih (t.name :: placed) (pending.erase t) ord hsub' hresp' hk
        refine ⟨h1, ?_, ?_, ?_⟩
        · intro n hn
          exact h2 n (List.mem_cons_of_mem _ hn)
        · intro u hu
          by_cases hut : u = t
          · subst hut
            exact h2 u.name (List.mem_cons_self _ _)
          · exact h3 u ((List.mem_erase_of_ne hut).mpr hu)
        · rw [h4, List.length_cons, List.length_erase_of_mem htp]
          have hpos : 0 < pending.length := by
            cases pending with
            | nil => simp [List.isEmpty] at hemp
            | cons a l => simp
          omega

/-- C3: `build` fails with exactly the declared error for each defect:
`duplicateName` when two tasks share a name, `unknownUpstream` when (names
being distinct) some edge references an undeclared task, `invalidField`
when additionally some field-grouping edge names a field outside its
producer's declared output schema, and `cycle` when additionally Kahn's
algorithm cannot place every task (an edge closes a cycle); on a
registration list free of all four defects `build` succeeds and returns
the immutable graph together with a topological order that covers every
task, has one entry per task, and places each task after all of its
upstreams. -/
theorem build_validation :
    (∀ regs : List TaskDef, ¬(namesOf regs).Nodup →
      build regs = .error .duplicateName) ∧
    (∀ regs : List TaskDef, (namesOf regs).Nodup →
      hasUnknownUpstream regs = true → build regs = .error .unknownUpstream) ∧
    (∀ regs : List TaskDef, (namesOf regs).Nodup →
      hasUnknownUpstream regs = false → hasInvalidField regs = true →
      build regs = .error .invalidField) ∧
    (∀ regs : List TaskDef, (namesOf regs).Nodup →
      hasUnknownUpstream regs = false → hasInvalidField regs = false →
      hasCycle regs = true → build regs = .error .cycle) ∧
    (∀ regs : List TaskDef, (namesOf regs).Nodup →
      hasUnknownUpstream regs = false → hasInvalidField regs = false →
      hasCycle regs = false →
      ∃ g, build regs = .ok g ∧ g.tasks = regs ∧
        revRespects regs g.order.reverse = true ∧
        (∀ t ∈ regs, t.name ∈ g.order) ∧ g.order.length = regs.length) := by
  refine ⟨?_, ?_, ?_, ?_, ?_⟩
  · intro regs h
    simp only [build]
    rw [if_pos h]
  · intro regs hnd hunk
    simp only [build]
    rw [if_neg (not_not_intro hnd), if_pos hunk]
  · intro regs hnd hunk hfld
    simp only [build]
    rw [if_neg (not_not_intro hnd), if_neg (by simp [hunk]), if_pos hfld]
  · intro regs hnd hunk hfld hcyc
    simp only [build]
    rw [if_neg (not_not_intro hnd), if_neg (by simp [hunk]), if_neg (by simp [hfld])]
    simp only [hasCycle, Option.isNone_iff_eq_none] at hcyc
    rw [hcyc]
  · intro regs hnd hunk hfld hcyc
    simp only [hasCycle] at hcyc
    cases hk : kahn regs.length [] regs with
    | none => rw [hk] at hcyc; cases hcyc
    | some ord =>
      obtain ⟨h1, _, h3, h4⟩ :=
        kahn_sound regs hnd regs.length [] regs ord (fun t h => h) rfl hk
      refine ⟨⟨regs, ord⟩, ?_, rfl, h1, h3, by simpa using h4⟩
      simp only [build]
      rw [if_neg (not_not_intro hnd), if_neg (by simp [hunk]), if_neg (by simp [hfld]), hk]

/-- Witness for `build_validation`: the success case applied to the
declared word-count topology, and the duplicate-name case applied to a
registration list naming the spout twice. -/
theorem build_validation_witness :
    (∃ g, build word_count_topology = .ok g ∧ g.tasks = word_count_topology ∧
      revRespects word_count_topology g.order.reverse = true ∧
      (∀ t ∈ word_count_topology, t.name ∈ g.order) ∧
      g.order.length = word_count_topology.length) ∧
    build [random_sentence_spout, random_sentence_spout] =
      .error .duplicateName :=
  ⟨build_validation.2.2.2.2 word_count_topology (by decide) (by decide)
      (by decide) (by decide),
   build_validation.1 [random_sentence_spout, random_sentence_spout] (by decide)⟩

end HeronCore

namespace HeronCore

/-- Sum of a pointwise sum of two functions over a list. -/
theorem sum_map_add (l : List Nat) (f g : Nat → Nat) :
    (l.map (fun i => f i + g i)).sum = (l.map f).sum + (l.map g).sum := by
  induction l with
  | nil => rfl
  | cons x l ih =>
    simp only [List.map_cons, List.sum_cons, ih]
    omega

/-- Summing an indicator supported at `r` over `range N` yields its value. -/
theorem sum_map_range_single {r c N : Nat} (h : r < N) :
    ((List.range N).map (fun i => if r = i then c else 0)).sum = c := by
  induction N with
  | zero => omega
  | succ N ih =>
    rw [List.range_succ, List.map_append, List.sum_append]
    by_cases hr : r = N
    · subst hr
      have h0 : ((List.range r).map (fun i => if r = i then c else 0)).sum = 0 := by
        apply List.sum_eq_zero
        intro x hx
        rcases List.mem_map.mp hx with ⟨i, hi, rfl⟩
        simp [Nat.ne_of_gt (List.mem_range.mp hi)]
      simp [h0]
    · have hr2 : r < N := by omega
      simp [ih hr2, hr]

/-- Occurrences in a concatenation over indices, as a sum of counts. -/
theorem count_flatMap (is : List Nat) (g : Nat → List String) (w : String) :
    (is.flatMap g).count w = (is.map (fun i => (g i).count w)).sum := by
  induction is with
  | nil => rfl
  | cons x l ih => simp [List.flatMap_cons, List.count_append, ih]

/-- Partitioning a list into route buckets, mapping each bucket and
concatenating preserves the number of occurrences of every element. -/
theorem count_route_buckets (l : List String) (f : String → List String)
    (route : String → Nat) (N : Nat) (h : ∀ x ∈ l, route x < N) (w : String) :
    ((List.range N).map
        (fun i => ((l.filter (fun x => route x = i)).flatMap f).count w)).sum
      = (l.flatMap f).count w := by
  induction l with
  | nil => simp
  | cons x l ih =>
    have hx : route x < N := h x (List.mem_cons_self _ _)
    have hl : ∀ y ∈ l, route y < N := fun y hy => h y (List.mem_cons_of_mem _ hy)
    have hfun : ∀ i, (((x :: l).filter (fun y => route y = i)).flatMap f).count w
        = (if route x = i then (f x).count w else 0)
          + ((l.filter (fun y => route y = i)).flatMap f).count w := by
      intro i
      by_cases hxi : route x = i
      · simp [List.filter_cons, hxi, List.flatMap_cons, List.count_append]
      · simp [List.filter_cons, hxi]
    rw [congrArg (fun F => (List.map F (List.range N)).sum) (funext hfun)]
    rw [sum_map_add, sum_map_range_single hx, ih hl]
    simp [List.flatMap_cons, List.count_append]

/-- Looking up in an association list of counts after a cons. -/
theorem lookupCount_cons (y : String) (c : Nat) (m : List (String × Nat))
    (w : String) :
    lookupCount ((y, c) :: m) w = if y = w then c else lookupCount m w := by
  by_cases h : y = w
  · rw [if_pos h]
    simp [lookupCount, List.find?_cons_of_pos, h]
  · rw [if_neg h]
    unfold lookupCount
    rw [List.find?_cons_of_neg _ (by simpa using h)]

/-- `bump` adds exactly one to the bumped word's count. -/
theorem lookupCount_bump (m : List (String × Nat)) (x w : String) :
    lookupCount (bump m x) w = lookupCount m w + if x = w then 1 else 0 := by
  induction m with
  | nil =>
    by_cases h : x = w <;> simp [bump, lookupCount_cons, lookupCount, h]
  | cons p m ih =>
    obtain ⟨y, c⟩ := p
    by_cases hyx : y = x
    · subst hyx
      by_cases hyw : y = w <;> simp [bump, lookupCount_cons, hyw]
    · by_cases hyw : y = w
      · subst hyw
        have hxw : ¬x = y := fun hh => hyx hh.symm
        simp [bump, hyx, lookupCount_cons, hxw]
      · simp [bump, hyx, lookupCount_cons, hyw, ih]

/-- The counter's association list agrees with the multiset count of the
words it has absorbed. -/
theorem countsOf_lookupCount (ws : List String) (w : String) :
    lookupCount (countsOf ws) w = ws.count w := by
  suffices h : ∀ m, lookupCount (ws.foldl bump m) w = lookupCount m w + ws.count w by
    simpa [countsOf, lookupCount] using h []
  induction ws with
  | nil => intro m; simp
  | cons x ws ih =>
    intro m
    rw [List.foldl_cons, ih (bump m x), lookupCount_bump, List.count_cons]
    by_cases h : x = w
    · simp [h]
      omega
    · simp [h]

/-- The word route lands strictly below the instance count. -/
theorem wordRoute_lt (w : String) (n : Nat) (h : 1 ≤ n) : wordRoute w n < n := by
  have he : wordRoute w n = stableHash w % n := by
    simp [wordRoute, fieldsRoute, wordRecord, Record.lookup?, List.find?]
  rw [he]
  exact Nat.mod_lt _ (by omega)

/-- The sentence route lands strictly below the instance count. -/
theorem sentenceRoute_lt (s : String) (n : Nat) (h : 1 ≤ n) :
    sentenceRoute s n < n := by
  have he : sentenceRoute s n = stableHash s % n := by
    simp [sentenceRoute, fieldsRoute, sentenceRecord, Record.lookup?, List.find?]
  rw [he]
  exact Nat.mod_lt _ (by omega)

/-- The multiset of words the splitter stage emits does not depend on how
sentences are partitioned across splitter instances. -/
theorem allSplitterOutput_count (sentences : List String) (w : String)
    (sN : Nat) (hs : 1 ≤ sN) :
    (allSplitterOutput sentences sN).count w
      = (sentences.flatMap splitSentence).count w := by
  rw [allSplitterOutput, count_flatMap]
  exact count_route_buckets sentences splitSentence (fun s => sentenceRoute s sN)
    sN (fun x _ => sentenceRoute_lt x sN hs) w

/-- Summing the per-counter-instance counts at flush time recovers the
total occurrence count of every word. -/
theorem counter_stage_count (words : List String) (w : String) (cN : Nat)
    (hc : 1 ≤ cN) :
    ((List.range cN).map
        (fun j => lookupCount (countsOf (counterInstanceWords words cN j)) w)).sum
      = words.count w := by
  have hfun : ∀ j, lookupCount (countsOf (counterInstanceWords words cN j)) w
      = if wordRoute w cN = j then words.count w else 0 := by
    intro j
    rw [countsOf_lookupCount]
    by_cases hj : wordRoute w cN = j
    · rw [if_pos hj]
      exact List.count_filter (by simpa using hj)
    · rw [if_neg hj]
      refine List.count_eq_zero.mpr ?_
      intro hmem
      exact hj (by simpa using (List.mem_filter.mp hmem).2)
  rw [congrArg (fun F => (List.map F (List.range cN)).sum) (funext hfun)]
  exact sum_map_range_single (wordRoute_lt w cN hc)

/-- The final aggregate equals the plain word count of the flat input. -/
theorem finalAgg_eq (sentences : List String) (w : String) (sN cN : Nat)
    (hs : 1 ≤ sN) (hc : 1 ≤ cN) :
    finalAgg sentences sN cN w = (sentences.flatMap splitSentence).count w := by
  rw [finalAgg, counter_stage_count _ w cN hc]
  exact allSplitterOutput_count sentences w sN hs

/-- C7: parallelism invariance: for any fixed input sequence of sentences
and any counter parallelism at least 1, running the splitter with
parallelism 2 and with parallelism 4 yields the same final aggregated
count for every word. -/
theorem parallelism_invariance (sentences : List String) (cN : Nat)
    (w : String) (hc : 1 ≤ cN) :
    finalAgg sentences 2 cN w = finalAgg sentences 4 cN w := by
  rw [finalAgg_eq sentences w 2 cN (by omega) hc,
    finalAgg_eq sentences w 4 cN (by omega) hc]

/-- Witness for `parallelism_invariance` at the example input. -/
theorem parallelism_invariance_witness :
    finalAgg ["the cat sat", "the cat ran"] 2 2 "the"
      = finalAgg ["the cat sat", "the cat ran"] 4 2 "the" :=
  parallelism_invariance ["the cat sat", "the cat ran"] 2 "the" (by decide)

end HeronCore

namespace HeronCore

/-- C8: delivery atomicity: the destination set a grouping strategy
computes is a single instance, and delivering a record to it is
all-or-nothing: either every destination queue receives exactly one copy
appended and every other queue is untouched, or the delivery is reported
as a queue-overflow failure — never a partial or silent outcome. -/
theorem delivery_atomicity (g : GroupingDecl) (cursor : Nat) (r : Record)
    (n : Nat) (ds : List Nat) (bound : Option Nat)
    (queues : Nat → List Record)
    (hroute : routeDests g cursor r n = some ds) :
    (∃ d, ds = [d]) ∧
    ((∃ q2, deliver r ds bound queues = .ok q2 ∧
        (∀ i ∈ ds, q2 i = queues i ++ [r]) ∧
        (∀ i, i ∉ ds → q2 i = queues i)) ∨
      deliver r ds bound queues = .error .queueOverflow) := by
  constructor
  · cases g with
    | shuffle =>
      simp only [routeDests] at hroute
      exact ⟨shuffleRoute cursor n, (Option.some.inj hroute).symm⟩
    | fields f =>
      simp only [routeDests, Option.map_eq_some'] at hroute
      rcases hroute with ⟨i, _, hi⟩
      exact ⟨i, hi.symm⟩
  · by_cases hfull : ds.any (fun i => queueFull bound (queues i)) = true
    · right
      simp only [deliver]
      rw [if_pos hfull]
    · left
      refine ⟨enqueueAll r ds queues, ?_, ?_, ?_⟩
      · simp only [deliver]
        rw [if_neg hfull]
      · intro i hi
        simp only [enqueueAll]
        rw [if_pos (List.elem_iff.mpr hi)]
      · intro i hi
        simp only [enqueueAll]
        rw [if_neg (by simpa using hi)]

/-- Witness for `delivery_atomicity`: delivering the word record for
"heron" through Fields("word") to two counter instances with unbounded
queues. -/
theorem delivery_atomicity_witness :
    (∃ d, [stableHash "heron" % 2] = [d]) ∧
    ((∃ q2, deliver (wordRecord "heron") [stableHash "heron" % 2] none
          (fun _ => []) = .ok q2 ∧
        (∀ i ∈ [stableHash "heron" % 2], q2 i = [] ++ [wordRecord "heron"]) ∧
        (∀ i, i ∉ [stableHash "heron" % 2] → q2 i = [])) ∨
      deliver (wordRecord "heron") [stableHash "heron" % 2] none
          (fun _ => []) = .error .queueOverflow) :=
  delivery_atomicity (.fields "word") 0 (wordRecord "heron") 2
    [stableHash "heron" % 2] none (fun _ => []) (by rfl)

end HeronCore
